import Mathlib

/-!
Verification of the Treent hierarchical-composition-tree core.

This file gives a shallow embedding of the repository's data model and
operations, and proves (or refutes) the frozen claims about it.

Sources embedded here:
  * `src/treent/TreeComponent.h`  — the per-kind structural node
    (`_parent` / `_children`, `attachToParent`, `removeChild`,
    `detachFromParent`, `descend`, `ascend`).
  * `src/treent/Treent.h`         — the composite facade
    (`_parent` / `_children` of owned facades, `attachChild`, `appendChild`,
    `removeChild`, `createChild`, variadic per-kind attach/detach).
  * `src/treent/TreentNodeComponent.h` — the back-reference component whose
    destructor tears a facade down when the registry destroys its entity.

Entities / component handles are modelled as `Nat` identifiers; a heap of
per-kind tree components is a total function from identifiers to records.
C++ `assert` is modelled with `Except Unit` (an `Except.error` means the
assertion aborts before any mutation).
-/

namespace treent

namespace TreeComponent

/-- State of one `TreeComponent<Derived>` instance: the `_parent` handle
(`none` when invalid, i.e. a root) and the ordered `_children` handle list.
Mirrors `TreeComponent.h` lines 58-60. -/
structure TC where
  parent : Option Nat
  children : List Nat
deriving DecidableEq, Repr

/-- A heap of tree components of one kind, indexed by entity id. -/
def World : Type := Nat → TC

/-- The heap in which every component is a fresh root with no children. -/
def emptyWorld : World := fun _ => ⟨none, []⟩

/-- Assignment `child->_parent = p` for a single component. -/
def setParent (i : Nat) (p : Option Nat) (w : World) : World :=
  fun j => if j = i then { w j with parent := p } else w j

/-- `parent->_children.push_back(child)`. -/
def pushChild (p c : Nat) (w : World) : World :=
  fun j => if j = p then { w j with children := (w j).children ++ [c] } else w j

/-- `_children.erase(std::remove_if(..., [child](Ref &b){ return b.get() == child; }), end)`:
drops every occurrence of `c` from `p`'s child list, by identity. -/
def filterChild (p c : Nat) (w : World) : World :=
  fun j => if j = p then { w j with children := (w j).children.filter (fun b => b != c) } else w j

/-- `TreeComponent::attachToParent(child, parent)` (`TreeComponent.h` 65-70):
`child->_parent = parent; parent->_children.push_back(child);`.
No precondition is checked in the source. -/
def attachToParent (child parent : Nat) (w : World) : World :=
  pushChild parent child (setParent child (some parent) w)

/-- Body of `TreeComponent::removeChild` after its assertion
(`TreeComponent.h` 72-84): `child->_parent = Ref();` then erase `child`
from `self`'s `_children` by identity. -/
def removeChildCore (self child : Nat) (w : World) : World :=
  filterChild self child (setParent child none w)

/-- `TreeComponent::removeChild(child)` including its
`assert(child->_parent.get() == &self())`; a failing assertion aborts
before mutating anything. -/
def removeChild (self child : Nat) (w : World) : Except Unit World :=
  if (w child).parent = some self then .ok (removeChildCore self child w) else .error ()

/-- `TreeComponent::detachFromParent()` (`TreeComponent.h` 96-104):
no-op when `_parent` is invalid, otherwise `_parent->removeChild(&self())`
followed by `_parent = Ref()` (the assertion inside `removeChild` always
holds on this path, see `removeChild_of_parent` below). -/
def detachFromParent (i : Nat) (w : World) : World :=
  match (w i).parent with
  | none => w
  | some p => setParent i none (removeChildCore p i w)

/-- One upward step of the parent relation: `b` is the recorded parent of `a`. -/
def step (w : World) (a b : Nat) : Prop := (w a).parent = some b

/-- The parent/child relation is exactly bidirectional: a component occurs in
`self._children` iff its `_parent` is `self`. -/
def Bidir (w : World) : Prop := ∀ i j : Nat, j ∈ (w i).children ↔ (w j).parent = some i

/-- No component is its own strict ancestor along the `_parent` chain. -/
def NoCycle (w : World) : Prop := ∀ i : Nat, ¬ Relation.TransGen (step w) i i

/-- Heaps reachable from the empty heap by the public node-level operations,
where every `attachToParent` call links a child that is currently parentless
and is not an ancestor-or-self of its new parent, and every direct
`removeChild` call satisfies the in-code assertion. The source checks only
the assertion; the parentless and no-cycle side conditions are the
preconditions the facade layer is meant to establish. -/
inductive ReachableN : World → Prop where
  | init : ReachableN emptyWorld
  | attach (child parent : Nat) (w : World) :
      ReachableN w →
      (w child).parent = none →
      ¬ Relation.ReflTransGen (step w) parent child →
      ReachableN (attachToParent child parent w)
  | remove (self child : Nat) (w : World) :
      ReachableN w →
      (w child).parent = some self →
      ReachableN (removeChildCore self child w)
  | detach (i : Nat) (w : World) :
      ReachableN w →
      ReachableN (detachFromParent i w)

end TreeComponent

namespace Treent

/-- Facade-level fields of one `Treent` (`Treent.h` 118-121): the non-owning
`_parent` back-pointer and the ordered `_children` list of owned child
facades (represented by their entity ids). -/
structure Facade where
  fparent : Option Nat
  fchildren : List Nat
deriving DecidableEq, Repr

/-- A world of facades together with one tree-component heap per configured
tree-aware kind `k : K` (the `TreeComponents...` template pack). -/
structure FWorld (K : Type) where
  facade : Nat → Facade
  node : K → TreeComponent.World

/-- The world with no attachments anywhere. -/
def emptyF (K : Type) : FWorld K :=
  { facade := fun _ => ⟨none, []⟩, node := fun _ => TreeComponent.emptyWorld }

/-- `Treent::attachChild(child)` (`Treent.h` 202-208):
`child->_parent = this;` then `attachChildComponent<TreeComponents...>`
(which calls `C::attachToParent(child.component<C>(), _entity.component<C>())`
for every configured kind) then `_children.push_back(std::move(child))`. -/
def attachChild {K : Type} (p c : Nat) (w : FWorld K) : FWorld K :=
  let w1 : FWorld K :=
    { w with facade := fun j => if j = c then { w.facade j with fparent := some p } else w.facade j }
  let w2 : FWorld K :=
    { w1 with node := fun k => TreeComponent.attachToParent c p (w1.node k) }
  { w2 with facade := fun j => if j = p then { w2.facade j with fchildren := (w2.facade j).fchildren ++ [c] } else w2.facade j }

/-- `Treent::appendChild(child)` (`Treent.h` 210-217):
`assert(!child->_parent);` then `attachChild(std::move(child))`.
An `Except.error` is the failed assertion, before any mutation. -/
def appendChild {K : Type} (p c : Nat) (w : FWorld K) : Except Unit (FWorld K) :=
  if (w.facade c).fparent = none then .ok (attachChild p c w) else .error ()

/-- `Treent::removeChild(Treent *child)` (`Treent.h` 219-237):
`child->detachComponentFromParent<TreeComponents...>()` (every kind's
`detachFromParent`), `child->_parent = nullptr`, then search `_children`
by identity; when found, release and erase the entry and return the
ownership handle, otherwise return `nullptr`. The first component of the
result is the returned handle (`some c` = ownership of `c`, `none` =
`nullptr`). -/
def removeChild {K : Type} (p c : Nat) (w : FWorld K) : Option Nat × FWorld K :=
  let w1 : FWorld K := { w with node := fun k => TreeComponent.detachFromParent c (w.node k) }
  let w2 : FWorld K :=
    { w1 with facade := fun j => if j = c then { w1.facade j with fparent := none } else w1.facade j }
  if c ∈ (w2.facade p).fchildren then
    (some c,
     { w2 with facade := fun j => if j = p then { w2.facade j with fchildren := (w2.facade j).fchildren.erase c } else w2.facade j })
  else
    (none, w2)

/-- `Treent::createChild()` (`Treent.h` 177-183): construct a fresh child
facade `n` (fresh entity with default-constructed components, `Treent.h`
141-148) and `attachChild` it to `p`. -/
def createChild {K : Type} (p n : Nat) (w : FWorld K) : FWorld K :=
  let w0 : FWorld K :=
    { facade := fun j => if j = n then ⟨none, []⟩ else w.facade j,
      node := fun k j => if j = n then ⟨none, []⟩ else w.node k j }
  attachChild p n w0

/-- `A` is `B`'s parent in the facade relation: `B`'s `_parent` points to
`A` and `B` is stored in `A`'s `_children`. -/
def FacadeRel {K : Type} (w : FWorld K) (a b : Nat) : Prop :=
  (w.facade b).fparent = some a ∧ b ∈ (w.facade a).fchildren

/-- Cross-kind consistency: for every configured kind `k`, the facade
relation holds between `a` and `b` iff `b`'s `k`-node records `a`'s
`k`-node as its parent. -/
def CrossInv {K : Type} (w : FWorld K) : Prop :=
  ∀ (a b : Nat) (k : K), FacadeRel w a b ↔ ((w.node k) b).parent = some a

/-- Entity id `n` is fresh for `w`: no facade and no tree component of any
kind records `n` as its parent. -/
def FreshFor {K : Type} (n : Nat) (w : FWorld K) : Prop :=
  ∀ j : Nat, (w.facade j).fparent ≠ some n ∧ ∀ k : K, ((w.node k) j).parent ≠ some n

/-- Facade worlds reachable from the empty world through the public facade
operations: `createChild` (with a fresh backing entity), `appendChild`
(whose assertion passed) and `removeChild`. -/
inductive ReachableF (K : Type) : FWorld K → Prop where
  | init : ReachableF K (emptyF K)
  | append (p c : Nat) (w w' : FWorld K) :
      ReachableF K w → appendChild p c w = .ok w' → ReachableF K w'
  | remove (p c : Nat) (w : FWorld K) :
      ReachableF K w → ReachableF K (removeChild p c w).2
  | create (p n : Nat) (w : FWorld K) :
      ReachableF K w → p ≠ n → FreshFor n w → ReachableF K (createChild p n w)

end Treent

/-- A finite composable-kind subtree: entity id, the component payload
(`Derived`'s data, e.g. `TransformComponent`'s fields) and the ordered
`_children` subtrees. This is the pointer structure of a well-formed
`TreeComponent` forest read off from one root. -/
inductive Tree (α : Type) : Type where
  | node (id : Nat) (payload : α) (children : List (Tree α))

/-- Number of nodes of a subtree (termination measure for the traversals). -/
def Tree.size {α : Type} : Tree α → Nat
  | .node _ _ cs => 1 + (cs.attach.map (fun c => Tree.size c.1)).sum
decreasing_by
  simp_wf
  have := List.sizeOf_lt_of_mem c.2
  omega

/-- Entity id at the root of a subtree. -/
def Tree.rootId {α : Type} : Tree α → Nat
  | .node i _ _ => i

/-- Payload at the root of a subtree. -/
def Tree.rootPayload {α : Type} : Tree α → α
  | .node _ p _ => p

/-- Children list of the root of a subtree. -/
def Tree.children {α : Type} : Tree α → List (Tree α)
  | .node _ _ cs => cs

/-- The mutation `c->compose(self())`: fold the source payload `src` into
the root payload of `c` with the kind's compose rule `f` (`f self other`
is C++ `self.compose(other)` returning the mutated `self`). Children are
untouched. -/
def composeRoot {α : Type} (f : α → α → α) (t : Tree α) (src : α) : Tree α :=
  match t with
  | .node i p cs => .node i (f p src) cs

/-- `TreeComponent::descend()` (`TreeComponent.h` 106-114):
`for (auto &c : _children) { c->compose(self()); c->descend(); }` —
each child is first mutated by composing the current node's payload into
it, then the traversal recurses into the mutated child. -/
def Tree.descend {α : Type} (f : α → α → α) : Tree α → Tree α
  | .node i p cs => .node i p (cs.attach.map (fun c => Tree.descend f (composeRoot f c.1 p)))
termination_by t => t.size
decreasing_by
  rcases c with ⟨c, hc⟩
  obtain ⟨j, q, ds⟩ := c
  simp only [composeRoot, Tree.size]
  rw [List.attach_map_val ds Tree.size, List.attach_map_val cs Tree.size]
  have h3 := List.single_le_sum (l := cs.map Tree.size) (fun x _ => Nat.zero_le x)
    _ (List.mem_map_of_mem Tree.size hc)
  have h6 : (Tree.node j q ds).size = 1 + (ds.map Tree.size).sum := by
    simp only [Tree.size]
    rw [List.attach_map_val ds Tree.size]
  omega

/-- The sequence of entity ids visited (i.e. receiving a `compose` call) by
one `descend()` call, in visit order; defined by the same recursion as
`descend` itself, over the mutated children. -/
def Tree.descendTrace {α : Type} (f : α → α → α) : Tree α → List Nat
  | .node i p cs =>
      (cs.attach.map (fun c => (composeRoot f c.1 p).rootId :: Tree.descendTrace f (composeRoot f c.1 p))).flatten
termination_by t => t.size
decreasing_by
  rcases c with ⟨c, hc⟩
  obtain ⟨j, q, ds⟩ := c
  simp only [composeRoot, Tree.size]
  rw [List.attach_map_val ds Tree.size, List.attach_map_val cs Tree.size]
  have h3 := List.single_le_sum (l := cs.map Tree.size) (fun x _ => Nat.zero_le x)
    _ (List.mem_map_of_mem Tree.size hc)
  have h6 : (Tree.node j q ds).size = 1 + (ds.map Tree.size).sum := by
    simp only [Tree.size]
    rw [List.attach_map_val ds Tree.size]
  omega

/-- Pre-order id listing of a subtree: the root first, then each child
subtree in insertion order. -/
def Tree.preorderIds {α : Type} : Tree α → List Nat
  | .node i p cs => i :: (cs.attach.map (fun c => Tree.preorderIds c.1)).flatten
termination_by t => t.size
decreasing_by
  rcases c with ⟨c, hc⟩
  obtain ⟨j, q, ds⟩ := c
  simp only [Tree.size]
  rw [List.attach_map_val ds Tree.size, List.attach_map_val cs Tree.size]
  have h3 := List.single_le_sum (l := cs.map Tree.size) (fun x _ => Nat.zero_le x)
    _ (List.mem_map_of_mem Tree.size hc)
  have h6 : (Tree.node j q ds).size = 1 + (ds.map Tree.size).sum := by
    simp only [Tree.size]
    rw [List.attach_map_val ds Tree.size]
  omega

/-- Specification-side recomputation of `descend`, following the spec's
words: the composed state accumulated from the ancestors (`acc`) is folded
into each node before its children consume it. -/
def Tree.descendSpec {α : Type} (f : α → α → α) (acc : α) : Tree α → Tree α
  | .node i p cs => .node i (f p acc) (cs.attach.map (fun c => Tree.descendSpec f (f p acc) c.1))
termination_by t => t.size
decreasing_by
  rcases c with ⟨c, hc⟩
  obtain ⟨j, q, ds⟩ := c
  simp only [Tree.size]
  rw [List.attach_map_val ds Tree.size, List.attach_map_val cs Tree.size]
  have h3 := List.single_le_sum (l := cs.map Tree.size) (fun x _ => Nat.zero_le x)
    _ (List.mem_map_of_mem Tree.size hc)
  have h6 : (Tree.node j q ds).size = 1 + (ds.map Tree.size).sum := by
    simp only [Tree.size]
    rw [List.attach_map_val ds Tree.size]
  omega

/-- The id/children skeleton of a subtree, payloads erased. -/
def Tree.shape {α : Type} : Tree α → Tree Unit
  | .node i p cs => .node i () (cs.attach.map (fun c => Tree.shape c.1))
termination_by t => t.size
decreasing_by
  rcases c with ⟨c, hc⟩
  obtain ⟨j, q, ds⟩ := c
  simp only [Tree.size]
  rw [List.attach_map_val ds Tree.size, List.attach_map_val cs Tree.size]
  have h3 := List.single_le_sum (l := cs.map Tree.size) (fun x _ => Nat.zero_le x)
    _ (List.mem_map_of_mem Tree.size hc)
  have h6 : (Tree.node j q ds).size = 1 + (ds.map Tree.size).sum := by
    simp only [Tree.size]
    rw [List.attach_map_val ds Tree.size]
  omega

/-- Strict occurrence: `s` is one of `t`'s child subtrees, or occurs
strictly inside one of them. -/
inductive OccursIn {α : Type} : Tree α → Tree α → Prop where
  | here (c t : Tree α) : c ∈ t.children → OccursIn c t
  | deeper (s c t : Tree α) : c ∈ t.children → OccursIn s c → OccursIn s t

/-- `TreeComponent::ascend()` (`TreeComponent.h` 116-124) over the finite
parent chain of the starting node: the chain lists the ancestors
nearest-first (root last) as (entity id, payload) pairs; `s` is the current
node's payload. Each step performs `_parent->compose(self())` — mutating
the parent with the node below it as source — and recurses upward from the
mutated parent; the recursion stops when the chain is exhausted (a root,
whose `_parent` handle is invalid). -/
def ascend {α : Type} (f : α → α → α) (s : α) : List (Nat × α) → List (Nat × α)
  | [] => []
  | (i, p) :: rest =>
      (i, f p s) :: ascend f (f p s) rest

/-- Lifecycle state of one facade for the destruction path: the
`TreentNodeComponent::_treent` back-pointer (`none` once neutralized), the
facade's `_parent` pointer, and validity of the facade's `_entity`. -/
structure DState where
  backref : Option Nat
  fparent : Option Nat
  entityValid : Bool
deriving DecidableEq, Repr

/-- `Treent::removeFromParent()` (`Treent.h` 102): when parented, the
parent's `removeChild(this)` yields the owning handle of this facade and
clears `_parent`; for a root it returns `nullptr` and changes nothing. -/
def removeFromParent (s : DState) : Option Unit × DState :=
  match s.fparent with
  | some _ => (some (), { s with fparent := none })
  | none => (none, s)

/-- `TreentNodeComponent::~TreentNodeComponent()`
(`TreentNodeComponent.h` 22-29):
`if (_treent) { auto t = _treent->removeFromParent(); t->_entity = Entity(); }`.
`t->_entity = Entity()` dereferences the returned handle; when the handle is
`nullptr` (the facade was a root) this is a null-pointer dereference,
modelled as `Except.error`. -/
def nodeComponentTeardown (s : DState) : Except Unit DState :=
  match s.backref with
  | none => .ok s
  | some _ =>
      match removeFromParent s with
      | (some _, s2) => .ok { s2 with entityValid := false }
      | (none, _) => .error ()

/-- Fixture: the heap after `attachToParent(n0, n0)` on a fresh heap — a
root attached to itself through the public node-level operation. -/
def selfLoopWorld : TreeComponent.World :=
  TreeComponent.attachToParent 0 0 TreeComponent.emptyWorld

/-- Fixture: the heap after `attachToParent(n1, n0)` on a fresh heap —
component 1 is a child of component 0. -/
def parentedWorld : TreeComponent.World :=
  TreeComponent.attachToParent 1 0 TreeComponent.emptyWorld

/-- Fixture: `attachToParent(n1, n2)` applied to `parentedWorld`, i.e. a
second attach of the already-parented component 1 under component 2. -/
def doubleAttachWorld : TreeComponent.World :=
  TreeComponent.attachToParent 1 2 parentedWorld

/-- Fixture: a three-node chain 0 → 1 → 2 (component 1 a child of 0,
component 2 a child of 1). -/
def chainWorld : TreeComponent.World := fun j =>
  if j = 0 then ⟨none, [1]⟩
  else if j = 1 then ⟨some 0, [2]⟩
  else if j = 2 then ⟨some 1, []⟩
  else ⟨none, []⟩

/-- Fixture: a facade world (one configured kind) in which facade 0 is a
root with children `[1, 2]`, consistently linked at facade and node level. -/
def pairFWorld : Treent.FWorld Unit :=
  { facade := fun j =>
      if j = 0 then ⟨none, [1, 2]⟩
      else if j = 1 then ⟨some 0, []⟩
      else if j = 2 then ⟨some 0, []⟩
      else ⟨none, []⟩,
    node := fun _ j =>
      if j = 0 then ⟨none, [1, 2]⟩
      else if j = 1 then ⟨some 0, []⟩
      else if j = 2 then ⟨some 0, []⟩
      else ⟨none, []⟩ }

/-- Fixture: an ancestor chain for `ascend` — parent (id 1, payload 10),
grandparent/root (id 2, payload 20). -/
def exChain : List (Nat × Int) := [(1, 10), (2, 20)]

/-- Fixture: a concrete composable subtree with distinct entity ids. -/
def exTree : Tree Int :=
  .node 0 1 [.node 1 2 [.node 3 4 []], .node 2 3 []]

/-- Fixture: destruction state of a root facade (no parent) whose
back-reference is still armed. -/
def rootDState : DState := ⟨some 0, none, true⟩

end treent

open treent

/-- Components of `TC` determine it. -/
theorem TC_ext (x y : TreeComponent.TC) (h1 : x.parent = y.parent)
    (h2 : x.children = y.children) : x = y := by
  cases x
  cases y
  simp_all

/-- Parent field after `setParent`. -/
theorem setParent_parent (i : Nat) (p : Option Nat) (w : TreeComponent.World) (j : Nat) :
    (TreeComponent.setParent i p w j).parent = if j = i then p else (w j).parent := by
  by_cases h : j = i <;> simp [TreeComponent.setParent, h]

/-- Children field after `setParent`. -/
theorem setParent_children (i : Nat) (p : Option Nat) (w : TreeComponent.World) (j : Nat) :
    (TreeComponent.setParent i p w j).children = (w j).children := by
  by_cases h : j = i <;> simp [TreeComponent.setParent, h]

/-- Parent field after `pushChild`. -/
theorem pushChild_parent (p c : Nat) (w : TreeComponent.World) (j : Nat) :
    (TreeComponent.pushChild p c w j).parent = (w j).parent := by
  by_cases h : j = p <;> simp [TreeComponent.pushChild, h]

/-- Children field after `pushChild`. -/
theorem pushChild_children (p c : Nat) (w : TreeComponent.World) (j : Nat) :
    (TreeComponent.pushChild p c w j).children
      = if j = p then (w j).children ++ [c] else (w j).children := by
  by_cases h : j = p <;> simp [TreeComponent.pushChild, h]

/-- Parent field after `attachToParent`: only the child's parent changes. -/
theorem attach_parent (c p : Nat) (w : TreeComponent.World) (j : Nat) :
    (TreeComponent.attachToParent c p w j).parent
      = if j = c then some p else (w j).parent := by
  rw [TreeComponent.attachToParent, pushChild_parent, setParent_parent]

/-- Children field after `attachToParent`: only the parent's list grows. -/
theorem attach_children (c p : Nat) (w : TreeComponent.World) (j : Nat) :
    (TreeComponent.attachToParent c p w j).children
      = if j = p then (w j).children ++ [c] else (w j).children := by
  rw [TreeComponent.attachToParent, pushChild_children]
  by_cases h : j = p <;> simp [h, setParent_children]

/-- Parent field after `removeChildCore`: only the child's parent clears. -/
theorem removeCore_parent (s c : Nat) (w : TreeComponent.World) (j : Nat) :
    (TreeComponent.removeChildCore s c w j).parent
      = if j = c then none else (w j).parent := by
  rw [TreeComponent.removeChildCore]
  have h1 : ∀ v : TreeComponent.World, (TreeComponent.filterChild s c v j).parent = (v j).parent := by
    intro v
    by_cases h : j = s <;> simp [TreeComponent.filterChild, h]
  rw [h1, setParent_parent]

/-- Children field after `removeChildCore`: only the parent's list is filtered. -/
theorem removeCore_children (s c : Nat) (w : TreeComponent.World) (j : Nat) :
    (TreeComponent.removeChildCore s c w j).children
      = if j = s then (w j).children.filter (fun b => b != c) else (w j).children := by
  rw [TreeComponent.removeChildCore]
  by_cases h : j = s <;> simp [TreeComponent.filterChild, h, setParent_children]

/-- On the `detachFromParent` path the guarded `removeChild` call always
passes its assertion (`child->_parent.get() == &self()` holds by
construction). -/
theorem removeChild_of_parent (s c : Nat) (w : TreeComponent.World)
    (h : (w c).parent = some s) :
    TreeComponent.removeChild s c w = Except.ok (TreeComponent.removeChildCore s c w) := by
  simp [TreeComponent.removeChild, h]

/-- `detachFromParent` of a root is the identity. -/
theorem detach_of_none (i : Nat) (w : TreeComponent.World)
    (h : (w i).parent = none) : TreeComponent.detachFromParent i w = w := by
  simp [TreeComponent.detachFromParent, h]

/-- `detachFromParent` of a parented node unfolds to the body of the
parent's `removeChild` followed by clearing the child's parent handle. -/
theorem detach_of_some (i p : Nat) (w : TreeComponent.World)
    (h : (w i).parent = some p) :
    TreeComponent.detachFromParent i w
      = TreeComponent.setParent i none (TreeComponent.removeChildCore p i w) := by
  simp [TreeComponent.detachFromParent, h]

/-- Claim C8: `detachFromParent()` is a no-op on a root; on a parented node
it removes exactly the link to the parent — the in-code assertion of the
`removeChild` it invokes passes, the node's parent handle is cleared, the
node's own children list is untouched, the former parent keeps its parent
and loses exactly this node from its children, and every other component
is completely unchanged — so the subtree below the node keeps its internal
structure. -/
theorem treent_c8_theorem (w : TreeComponent.World) (i : Nat) :
    ((w i).parent = none → TreeComponent.detachFromParent i w = w)
    ∧ (∀ p : Nat, (w i).parent = some p → p ≠ i →
        TreeComponent.removeChild p i w = Except.ok (TreeComponent.removeChildCore p i w)
        ∧ ((TreeComponent.detachFromParent i w) i).parent = none
        ∧ ((TreeComponent.detachFromParent i w) i).children = (w i).children
        ∧ ((TreeComponent.detachFromParent i w) p).parent = (w p).parent
        ∧ ((TreeComponent.detachFromParent i w) p).children
            = (w p).children.filter (fun b => b != i)
        ∧ (∀ j : Nat, j ≠ i → j ≠ p → (TreeComponent.detachFromParent i w) j = w j)) := by
  constructor
  · intro h
    exact detach_of_none i w h
  · intro p hp hpi
    have hd := detach_of_some i p w hp
    refine ⟨removeChild_of_parent p i w hp, ?_, ?_, ?_, ?_, ?_⟩
    · rw [hd, setParent_parent]
      simp
    · rw [hd, setParent_children, removeCore_children]
      simp [Ne.symm hpi]
    · rw [hd, setParent_parent, removeCore_parent]
      simp [hpi, Ne.symm hpi]
    · rw [hd, setParent_children, removeCore_children]
      simp
    · intro j hji hjp
      rw [hd]
      apply TC_ext
      · rw [setParent_parent, removeCore_parent]
        simp [hji]
      · rw [setParent_children, removeCore_children]
        simp [hjp]

/-- Witness for C8 on the chain 0 → 1 → 2, detaching node 1 from node 0:
the assertion passes, node 1 becomes a root but keeps child 2, node 0
loses exactly node 1, and node 2 is untouched. -/
theorem treent_c8_witness :
    (chainWorld 1).parent = some 0 ∧ (0 : Nat) ≠ 1
    ∧ (TreeComponent.removeChild 0 1 chainWorld
        = Except.ok (TreeComponent.removeChildCore 0 1 chainWorld)
      ∧ ((TreeComponent.detachFromParent 1 chainWorld) 1).parent = none
      ∧ ((TreeComponent.detachFromParent 1 chainWorld) 1).children = (chainWorld 1).children
      ∧ ((TreeComponent.detachFromParent 1 chainWorld) 0).parent = (chainWorld 0).parent
      ∧ ((TreeComponent.detachFromParent 1 chainWorld) 0).children
          = (chainWorld 0).children.filter (fun b => b != 1)
      ∧ (∀ j : Nat, j ≠ 1 → j ≠ 0 → (TreeComponent.detachFromParent 1 chainWorld) j = chainWorld j)) :=
  ⟨by decide, by decide, (treent_c8_theorem chainWorld 1).2 0 (by decide) (by decide)⟩

/-- Claim C5 counterexample: in the source, `TreeComponent::attachToParent`
has no precondition check. Attaching component 1 — already a child of
component 0 — under component 2 does not fail; it silently relinks the
parent handle and mutates both trees: component 1 now also sits in
component 2's children while still sitting, stale, in component 0's
children. This refutes the claim that the node-level attach of an
already-parented child fails fatally and mutates neither tree. -/
theorem treent_c5_counterexample :
    (parentedWorld 1).parent = some 0
    ∧ (doubleAttachWorld 1).parent = some 2
    ∧ 1 ∈ (doubleAttachWorld 0).children
    ∧ 1 ∈ (doubleAttachWorld 2).children := by
  decide

/-- Claim C5 (amended): only the facade level checks the precondition —
`Treent::appendChild` of a facade whose `_parent` is already set fails its
debug assertion before any mutation; the node-level `attachToParent`
performs no check at all (see the counterexample). -/
theorem treent_c5_theorem {K : Type} (w : Treent.FWorld K) (p c q : Nat)
    (h : (w.facade c).fparent = some q) :
    Treent.appendChild p c w = Except.error () := by
  simp [Treent.appendChild, h]

/-- Witness for the amended C5: appending facade 1 (a child of facade 0)
to facade 2 fails the assertion. -/
theorem treent_c5_witness :
    (pairFWorld.facade 1).fparent = some 0
    ∧ Treent.appendChild 2 1 pairFWorld = Except.error () :=
  ⟨by decide, treent_c5_theorem pairFWorld 2 1 0 (by decide)⟩

/-- Claim C6: removing a facade that is not in `_children` returns a null
ownership handle and leaves this facade's `_children` unchanged (the source
reaches the `return nullptr` branch after the identity search fails; no
exception is thrown anywhere on this path — the manager variant merely
logs a warning, `TreentManager.cpp` 17-31). -/
theorem treent_c6_theorem {K : Type} (w : Treent.FWorld K) (p c : Nat)
    (h : c ∉ (w.facade p).fchildren) :
    (Treent.removeChild p c w).1 = none
    ∧ ((Treent.removeChild p c w).2.facade p).fchildren = (w.facade p).fchildren := by
  rw [Treent.removeChild]
  by_cases hpc : p = c
  · subst hpc
    simp [h]
  · simp [hpc, h]

/-- Witness for C6: facade 5 is not a child of facade 0 in `pairFWorld`;
removal returns no handle and facade 0 keeps its children `[1, 2]`. -/
theorem treent_c6_witness :
    (5 : Nat) ∉ (pairFWorld.facade 0).fchildren
    ∧ ((Treent.removeChild 0 5 pairFWorld).1 = none
       ∧ ((Treent.removeChild 0 5 pairFWorld).2.facade 0).fchildren
           = (pairFWorld.facade 0).fchildren) :=
  ⟨by decide, treent_c6_theorem pairFWorld 0 5 (by decide)⟩

/-- Parent pointer of every facade after `attachChild`. -/
theorem attachChild_fparent {K : Type} (p c : Nat) (w : Treent.FWorld K) (j : Nat) :
    ((Treent.attachChild p c w).facade j).fparent
      = if j = c then some p else (w.facade j).fparent := by
  rw [Treent.attachChild]
  by_cases hjp : j = p <;> by_cases hjc : j = c <;> by_cases hpc : p = c <;>
    simp_all [eq_comm]

/-- Children list of every facade after `attachChild`. -/
theorem attachChild_fchildren {K : Type} (p c : Nat) (w : Treent.FWorld K) (j : Nat) :
    ((Treent.attachChild p c w).facade j).fchildren
      = if j = p then (w.facade j).fchildren ++ [c] else (w.facade j).fchildren := by
  rw [Treent.attachChild]
  by_cases hjp : j = p <;> by_cases hjc : j = c <;> by_cases hpc : p = c <;>
    simp_all [eq_comm]

/-- Per-kind component heap after `attachChild`: the kind's `attachToParent`. -/
theorem attachChild_node {K : Type} (p c : Nat) (w : Treent.FWorld K) (k : K) :
    (Treent.attachChild p c w).node k = TreeComponent.attachToParent c p (w.node k) := rfl

/-- Projections of `Treent::removeChild` in the found case (the child is
present in `_children` and distinct from the parent): the ownership handle
is returned, the child's facade parent clears, the parent's list drops the
child, every kind's node detaches, and nothing else changes. -/
theorem removeChild_found {K : Type} (p c : Nat) (w : Treent.FWorld K)
    (hpc : p ≠ c) (hmem : c ∈ (w.facade p).fchildren) :
    (Treent.removeChild p c w).1 = some c
    ∧ (∀ j : Nat, ((Treent.removeChild p c w).2.facade j).fparent
        = if j = c then none else (w.facade j).fparent)
    ∧ (∀ j : Nat, ((Treent.removeChild p c w).2.facade j).fchildren
        = if j = p then (w.facade j).fchildren.erase c else (w.facade j).fchildren)
    ∧ (∀ k : K, (Treent.removeChild p c w).2.node k
        = TreeComponent.detachFromParent c (w.node k)) := by
  rw [Treent.removeChild]
  have hne : ¬ p = c := hpc
  refine ⟨by simp [hne, hmem], ?_, ?_, by intro k; simp [hne, hmem]⟩
  · intro j
    by_cases hjp : j = p <;> by_cases hjc : j = c <;>
      simp [hne, hmem, hjp, hjc] <;> simp_all
  · intro j
    by_cases hjp : j = p <;> by_cases hjc : j = c <;>
      simp [hne, hmem, hjp, hjc] <;> simp_all

/-- Claim C7 counterexample: on a parent with children `[1, 2]`,
`removeChild(1)` followed by `appendChild(1)` re-attaches facade 1 but
appends it at the END of `_children` (both at facade and node level),
producing child order `[2, 1]` — not the original `[1, 2]`. Since
insertion order is traversal order, the net effect on the tree shape is
not empty, refuting the round-trip claim as stated. -/
theorem treent_c7_counterexample :
    (pairFWorld.facade 0).fchildren = [1, 2]
    ∧ (Treent.removeChild 0 1 pairFWorld).1 = some 1
    ∧ ((Treent.appendChild 0 1 (Treent.removeChild 0 1 pairFWorld).2).toOption.map
        (fun v => (v.facade 0).fchildren)) = some [2, 1]
    ∧ ((Treent.appendChild 0 1 (Treent.removeChild 0 1 pairFWorld).2).toOption.map
        (fun v => (v.facade 0).fchildren)) ≠ some ((pairFWorld.facade 0).fchildren) := by
  decide

/-- Claim C7 (amended): `removeChild(c)` followed by `appendChild(c)` on the
same parent restores c's attachment to that parent — the handle is
returned, the append's assertion passes, afterwards c's facade parent is
again p, every configured kind's node relation between p and c is
re-established, and no other facade or component changes — but c moves to
the LAST position of the children lists (facade and node level); the tree
shape is restored exactly only when c was already the last child. -/
theorem treent_c7_theorem {K : Type} (w : Treent.FWorld K) (p c : Nat)
    (hpc : p ≠ c)
    (hmem : c ∈ (w.facade p).fchildren)
    (hnode : ∀ k : K, ((w.node k) c).parent = some p) :
    (Treent.removeChild p c w).1 = some c
    ∧ Treent.appendChild p c (Treent.removeChild p c w).2
        = Except.ok (Treent.attachChild p c (Treent.removeChild p c w).2)
    ∧ ((Treent.attachChild p c (Treent.removeChild p c w).2).facade c).fparent = some p
    ∧ ((Treent.attachChild p c (Treent.removeChild p c w).2).facade c).fchildren
        = (w.facade c).fchildren
    ∧ ((Treent.attachChild p c (Treent.removeChild p c w).2).facade p).fparent
        = (w.facade p).fparent
    ∧ ((Treent.attachChild p c (Treent.removeChild p c w).2).facade p).fchildren
        = (w.facade p).fchildren.erase c ++ [c]
    ∧ (∀ k : K, (((Treent.attachChild p c (Treent.removeChild p c w).2).node k) c).parent = some p)
    ∧ (∀ k : K, (((Treent.attachChild p c (Treent.removeChild p c w).2).node k) p).children
        = ((w.node k) p).children.filter (fun b => b != c) ++ [c])
    ∧ (∀ j : Nat, j ≠ p → j ≠ c →
        (Treent.attachChild p c (Treent.removeChild p c w).2).facade j = w.facade j)
    ∧ (∀ (k : K) (j : Nat), j ≠ p → j ≠ c →
        ((Treent.attachChild p c (Treent.removeChild p c w).2).node k) j = (w.node k) j) := by
  obtain ⟨h1, hfp, hfc, hnd⟩ := removeChild_found p c w hpc hmem
  have happ : Treent.appendChild p c (Treent.removeChild p c w).2
      = Except.ok (Treent.attachChild p c (Treent.removeChild p c w).2) := by
    rw [Treent.appendChild]
    rw [hfp c]
    simp
  refine ⟨h1, happ, ?_, ?_, ?_, ?_, ?_, ?_, ?_, ?_⟩
  · rw [attachChild_fparent]
    simp
  · rw [attachChild_fchildren]
    rw [if_neg (Ne.symm hpc), hfc c, if_neg (fun h => hpc h.symm)]
  · rw [attachChild_fparent]
    rw [if_neg hpc, hfp p, if_neg hpc]
  · rw [attachChild_fchildren]
    rw [if_pos rfl, hfc p, if_pos rfl]
  · intro k
    rw [attachChild_node, attach_parent]
    simp
  · intro k
    rw [attachChild_node, attach_children, if_pos rfl, hnd k,
      detach_of_some c p (w.node k) (hnode k), setParent_children, removeCore_children,
      if_pos rfl]
  · intro j hjp hjc
    have e1 : ((Treent.attachChild p c (Treent.removeChild p c w).2).facade j).fparent
        = (w.facade j).fparent := by
      rw [attachChild_fparent, if_neg hjc, hfp j, if_neg hjc]
    have e2 : ((Treent.attachChild p c (Treent.removeChild p c w).2).facade j).fchildren
        = (w.facade j).fchildren := by
      rw [attachChild_fchildren, if_neg hjp, hfc j, if_neg hjp]
    cases hx : (Treent.attachChild p c (Treent.removeChild p c w).2).facade j
    cases hy : w.facade j
    simp_all
  · intro k j hjp hjc
    apply TC_ext
    · rw [attachChild_node, attach_parent, if_neg hjc, hnd k,
        detach_of_some c p (w.node k) (hnode k), setParent_parent, if_neg hjc,
        removeCore_parent, if_neg hjc]
    · rw [attachChild_node, attach_children, if_neg hjp, hnd k,
        detach_of_some c p (w.node k) (hnode k), setParent_children,
        removeCore_children, if_neg hjp]

/-- Witness for the amended C7: on `pairFWorld` (children `[1, 2]`),
remove-then-append of facade 1 under facade 0 restores the attachment with
facade 1 moved to the end. -/
theorem treent_c7_witness :
    ((0 : Nat) ≠ 1 ∧ 1 ∈ (pairFWorld.facade 0).fchildren
      ∧ ∀ k : Unit, ((pairFWorld.node k) 1).parent = some 0)
    ∧ ((Treent.removeChild 0 1 pairFWorld).1 = some 1
    ∧ Treent.appendChild 0 1 (Treent.removeChild 0 1 pairFWorld).2
        = Except.ok (Treent.attachChild 0 1 (Treent.removeChild 0 1 pairFWorld).2)
    ∧ ((Treent.attachChild 0 1 (Treent.removeChild 0 1 pairFWorld).2).facade 1).fparent = some 0
    ∧ ((Treent.attachChild 0 1 (Treent.removeChild 0 1 pairFWorld).2).facade 1).fchildren
        = (pairFWorld.facade 1).fchildren
    ∧ ((Treent.attachChild 0 1 (Treent.removeChild 0 1 pairFWorld).2).facade 0).fparent
        = (pairFWorld.facade 0).fparent
    ∧ ((Treent.attachChild 0 1 (Treent.removeChild 0 1 pairFWorld).2).facade 0).fchildren
        = (pairFWorld.facade 0).fchildren.erase 1 ++ [1]
    ∧ (∀ k : Unit, (((Treent.attachChild 0 1 (Treent.removeChild 0 1 pairFWorld).2).node k) 1).parent = some 0)
    ∧ (∀ k : Unit, (((Treent.attachChild 0 1 (Treent.removeChild 0 1 pairFWorld).2).node k) 0).children
        = ((pairFWorld.node k) 0).children.filter (fun b => b != 1) ++ [1])
    ∧ (∀ j : Nat, j ≠ 0 → j ≠ 1 →
        (Treent.attachChild 0 1 (Treent.removeChild 0 1 pairFWorld).2).facade j = pairFWorld.facade j)
    ∧ (∀ (k : Unit) (j : Nat), j ≠ 0 → j ≠ 1 →
        ((Treent.attachChild 0 1 (Treent.removeChild 0 1 pairFWorld).2).node k) j = (pairFWorld.node k) j)) :=
  ⟨⟨by decide, by decide, fun k => by cases k; decide⟩,
    treent_c7_theorem pairFWorld 0 1 (by decide) (by decide) (fun k => by cases k; decide)⟩

/-- Characterization of the parent-step relation after `attachToParent`. -/
theorem step_attach (c p : Nat) (w : TreeComponent.World) (a b : Nat) :
    TreeComponent.step (TreeComponent.attachToParent c p w) a b
      ↔ ((a = c ∧ b = p) ∨ (a ≠ c ∧ TreeComponent.step w a b)) := by
  unfold TreeComponent.step
  rw [attach_parent]
  by_cases h : a = c <;> simp [h, eq_comm]

/-- Characterization of the parent-step relation after `removeChildCore`. -/
theorem step_removeCore (s c : Nat) (w : TreeComponent.World) (a b : Nat) :
    TreeComponent.step (TreeComponent.removeChildCore s c w) a b
      ↔ (a ≠ c ∧ TreeComponent.step w a b) := by
  unfold TreeComponent.step
  rw [removeCore_parent]
  by_cases h : a = c <;> simp [h]

/-- Bidirectionality is preserved by `attachToParent` of a parentless child. -/
theorem bidir_attach (c p : Nat) (w : TreeComponent.World)
    (hb : TreeComponent.Bidir w) (hc : (w c).parent = none) :
    TreeComponent.Bidir (TreeComponent.attachToParent c p w) := by
  intro i j
  rw [attach_children, attach_parent]
  by_cases hip : i = p <;> by_cases hjc : j = c
  · rw [if_pos hip, if_pos hjc, hip, hjc]
    simp
  · rw [if_pos hip, if_neg hjc, hip]
    simp only [List.mem_append, List.mem_singleton]
    rw [← hb p j]
    simp [hjc]
  · rw [if_neg hip, if_pos hjc, hjc, hb i c, hc]
    simp
    omega
  · rw [if_neg hip, if_neg hjc]
    exact hb i j

/-- Bidirectionality is preserved by the body of `removeChild` when its
assertion holds. -/
theorem bidir_removeCore (s c : Nat) (w : TreeComponent.World)
    (hb : TreeComponent.Bidir w) (hp : (w c).parent = some s) :
    TreeComponent.Bidir (TreeComponent.removeChildCore s c w) := by
  intro i j
  rw [removeCore_children, removeCore_parent]
  by_cases his : i = s <;> by_cases hjc : j = c
  · rw [if_pos his, if_pos hjc, hjc]
    simp [List.mem_filter]
  · rw [if_pos his, if_neg hjc, his]
    rw [← hb s j]
    simp [List.mem_filter, hjc]
  · rw [if_neg his, if_pos hjc, hjc, hb i c, hp]
    simp
    omega
  · rw [if_neg his, if_neg hjc]
    exact hb i j

/-- Every reachability path in the heap after `attachToParent c p` is
either a path of the old heap, or passes through the new edge: it runs
from its start to `c` in the old heap and then from `p` to its end in the
old heap (the no-cycle guard rules out crossing the new edge twice). -/
theorem rtg_attach_decompose (c p : Nat) (w : TreeComponent.World)
    (hguard : ¬ Relation.ReflTransGen (TreeComponent.step w) p c) (x y : Nat)
    (h : Relation.ReflTransGen (TreeComponent.step (TreeComponent.attachToParent c p w)) x y) :
    Relation.ReflTransGen (TreeComponent.step w) x y
    ∨ (Relation.ReflTransGen (TreeComponent.step w) x c
       ∧ Relation.ReflTransGen (TreeComponent.step w) p y) := by
  refine Relation.ReflTransGen.head_induction_on h (Or.inl Relation.ReflTransGen.refl) ?_
  intro a z hstep _ ih
  rcases (step_attach c p w a z).mp hstep with ⟨hac, hbp⟩ | ⟨hac, hold⟩
  · rcases ih with hpy | ⟨hpc, _⟩
    · rw [hbp] at hpy
      rw [hac]
      exact Or.inr ⟨Relation.ReflTransGen.refl, hpy⟩
    · rw [hbp] at hpc
      exact absurd hpc hguard
  · rcases ih with hzy | ⟨hzc, hpy⟩
    · exact Or.inl (Relation.ReflTransGen.head hold hzy)
    · exact Or.inr ⟨Relation.ReflTransGen.head hold hzc, hpy⟩

/-- Acyclicity is preserved by `attachToParent` of a parentless child whose
new parent it cannot already reach. -/
theorem nocycle_attach (c p : Nat) (w : TreeComponent.World)
    (hn : TreeComponent.NoCycle w)
    (hguard : ¬ Relation.ReflTransGen (TreeComponent.step w) p c) :
    TreeComponent.NoCycle (TreeComponent.attachToParent c p w) := by
  intro i hcyc
  obtain ⟨z, hstep, htail⟩ := (Relation.TransGen.head'_iff).mp hcyc
  rcases (step_attach c p w _ _).mp hstep with ⟨hic, hzp⟩ | ⟨hic, hold⟩
  · rw [hzp, hic] at htail
    rcases rtg_attach_decompose c p w hguard _ _ htail with hpc | ⟨hpc, _⟩
    · exact hguard hpc
    · exact hguard hpc
  · rcases rtg_attach_decompose c p w hguard _ _ htail with hzi | ⟨hzc, hpi⟩
    · exact hn i (Relation.TransGen.head' hold hzi)
    · exact hguard (hpi.trans (Relation.ReflTransGen.head hold hzc))

/-- Acyclicity is preserved by the body of `removeChild` (its steps are a
subrelation of the old heap's steps). -/
theorem nocycle_removeCore (s c : Nat) (w : TreeComponent.World)
    (hn : TreeComponent.NoCycle w) :
    TreeComponent.NoCycle (TreeComponent.removeChildCore s c w) := by
  intro i hcyc
  refine hn i (Relation.TransGen.mono ?_ hcyc)
  intro a b hab
  exact ((step_removeCore s c w a b).mp hab).2

/-- Clearing a parent handle that is already clear changes nothing. -/
theorem setParent_none_cancel (i : Nat) (v : TreeComponent.World)
    (h : (v i).parent = none) : TreeComponent.setParent i none v = v := by
  funext j
  apply TC_ext
  · rw [setParent_parent]
    by_cases hj : j = i
    · subst hj
      simp [h]
    · simp [hj]
  · rw [setParent_children]

/-- Claim C1 (amended): every heap built through the public node-level
operations — where each `attachToParent` links a parentless child that is
not an ancestor-or-self of its new parent, and each `removeChild` call
satisfies its in-code assertion — has an exactly bidirectional
parent/child relation (hence each component occurs in the children of at
most one parent, and the single `_parent` handle means at most one parent
at any time) and is acyclic: a forest of rooted trees. The source checks
only `removeChild`'s assertion; the counterexample shows the attach-side
conditions are genuinely needed. -/
theorem treent_c1_theorem (w : TreeComponent.World)
    (h : TreeComponent.ReachableN w) :
    TreeComponent.Bidir w ∧ TreeComponent.NoCycle w := by
  induction h with
  | init =>
      constructor
      · intro i j
        simp [TreeComponent.emptyWorld]
      · intro i hcyc
        obtain ⟨z, hstep, -⟩ := Relation.TransGen.head'_iff.mp hcyc
        simp [TreeComponent.step, TreeComponent.emptyWorld] at hstep
  | attach c p w _ hc hguard ih =>
      exact ⟨bidir_attach c p w ih.1 hc, nocycle_attach c p w ih.2 hguard⟩
  | remove s c w _ hp ih =>
      exact ⟨bidir_removeCore s c w ih.1 hp, nocycle_removeCore s c w ih.2⟩
  | detach i w _ ih =>
      cases hip : (w i).parent with
      | none =>
          rw [detach_of_none i w hip]
          exact ih
      | some p =>
          rw [detach_of_some i p w hip, setParent_none_cancel i _ (by rw [removeCore_parent]; simp)]
          exact ⟨bidir_removeCore p i w ih.1 hip, nocycle_removeCore p i w ih.2⟩

/-- Claim C1 counterexample: `attachToParent(n0, n0)` on a fresh heap — a
public node-level operation whose child is parentless, so even the spec's
stated precondition holds — makes component 0 its own parent, its own
child, and its own strict ancestor. The claim that every tree built
through the public operations is free of cycles is therefore false on the
code (no ancestry check exists anywhere). -/
theorem treent_c1_counterexample :
    (TreeComponent.emptyWorld 0).parent = none
    ∧ (selfLoopWorld 0).parent = some 0
    ∧ 0 ∈ (selfLoopWorld 0).children
    ∧ Relation.TransGen (TreeComponent.step selfLoopWorld) 0 0 := by
  refine ⟨by decide, by decide, by decide, Relation.TransGen.single ?_⟩
  show (selfLoopWorld 0).parent = some 0
  decide

/-- Witness for the amended C1: the heap with component 1 attached under
component 0 is reachable with the guards satisfied, hence bidirectional
and acyclic. -/
theorem treent_c1_witness :
    TreeComponent.ReachableN parentedWorld
    ∧ (TreeComponent.Bidir parentedWorld ∧ TreeComponent.NoCycle parentedWorld) := by
  have hguard : ¬ Relation.ReflTransGen (TreeComponent.step TreeComponent.emptyWorld) 0 1 := by
    intro h
    rcases Relation.ReflTransGen.cases_head h with heq | ⟨z, hstep, _⟩
    · exact absurd heq (by decide)
    · simp [TreeComponent.step, TreeComponent.emptyWorld] at hstep
  have hre : TreeComponent.ReachableN parentedWorld :=
    TreeComponent.ReachableN.attach 1 0 TreeComponent.emptyWorld
      TreeComponent.ReachableN.init (by decide) hguard
  exact ⟨hre, treent_c1_theorem parentedWorld hre⟩

/-- Parent handle of every component after `detachFromParent`: only the
detached component's parent clears. -/
theorem detach_parent (c : Nat) (v : TreeComponent.World) (j : Nat) :
    (TreeComponent.detachFromParent c v j).parent
      = if j = c then none else (v j).parent := by
  cases hc : (v c).parent with
  | none =>
      rw [detach_of_none c v hc]
      by_cases hj : j = c <;> simp [hj, hc]
  | some p =>
      rw [detach_of_some c p v hc, setParent_parent, removeCore_parent]
      by_cases hj : j = c <;> simp [hj]

/-- Facade parent pointers after `Treent::removeChild`, in every case. -/
theorem removeChild_snd_fparent {K : Type} (p c : Nat) (w : Treent.FWorld K) (j : Nat) :
    ((Treent.removeChild p c w).2.facade j).fparent
      = if j = c then none else (w.facade j).fparent := by
  rw [Treent.removeChild]
  by_cases hpc : p = c <;> by_cases hjc : j = c <;> by_cases hjp : j = p <;>
    split <;> simp_all

/-- Facade children lists after `Treent::removeChild`, in every case. -/
theorem removeChild_snd_fchildren {K : Type} (p c : Nat) (w : Treent.FWorld K) (j : Nat) :
    ((Treent.removeChild p c w).2.facade j).fchildren
      = if j = p ∧ c ∈ (w.facade p).fchildren
        then (w.facade j).fchildren.erase c else (w.facade j).fchildren := by
  rw [Treent.removeChild]
  by_cases hpc : p = c <;> by_cases hjc : j = c <;> by_cases hjp : j = p <;>
    split <;> simp_all

/-- Per-kind component heaps after `Treent::removeChild`, in every case. -/
theorem removeChild_snd_node {K : Type} (p c : Nat) (w : Treent.FWorld K) (k : K) :
    (Treent.removeChild p c w).2.node k
      = TreeComponent.detachFromParent c (w.node k) := by
  rw [Treent.removeChild]
  split <;> rfl

/-- Cross-kind consistency is preserved by `attachChild` (all configured
kinds are linked together with the facade pointers). -/
theorem crossinv_attach {K : Type} (p c : Nat) (w : Treent.FWorld K)
    (hI : Treent.CrossInv w) : Treent.CrossInv (Treent.attachChild p c w) := by
  intro a b k
  have hold := hI a b k
  simp only [Treent.FacadeRel] at hold ⊢
  rw [attachChild_fparent, attachChild_fchildren, attachChild_node, attach_parent]
  by_cases hbc : b = c
  · rw [if_pos hbc, if_pos hbc]
    constructor
    · exact fun h => h.1
    · intro h
      refine ⟨h, ?_⟩
      have hap : a = p := (Option.some.inj h).symm
      rw [if_pos hap, hbc]
      simp
  · rw [if_neg hbc, if_neg hbc]
    by_cases hap : a = p
    · rw [if_pos hap]
      rw [← hold]
      constructor
      · rintro ⟨h1, h2⟩
        rcases List.mem_append.mp h2 with h2 | h2
        · exact ⟨h1, h2⟩
        · exact absurd (List.mem_singleton.mp h2) hbc
      · rintro ⟨h1, h2⟩
        exact ⟨h1, List.mem_append.mpr (Or.inl h2)⟩
    · rw [if_neg hap]
      exact hold

/-- Cross-kind consistency is preserved by `Treent::removeChild` (all
configured kinds are detached together; a not-found removal detaches the
kinds and clears the facade parent, leaving both sides of the equivalence
false for every pair involving the child). -/
theorem crossinv_remove {K : Type} (p c : Nat) (w : Treent.FWorld K)
    (hI : Treent.CrossInv w) : Treent.CrossInv (Treent.removeChild p c w).2 := by
  intro a b k
  have hold := hI a b k
  simp only [Treent.FacadeRel] at hold ⊢
  rw [removeChild_snd_fparent, removeChild_snd_fchildren, removeChild_snd_node, detach_parent]
  by_cases hbc : b = c
  · rw [if_pos hbc, if_pos hbc]
    simp
  · rw [if_neg hbc, if_neg hbc]
    by_cases hap : a = p ∧ c ∈ (w.facade p).fchildren
    · rw [if_pos hap, List.mem_erase_of_ne hbc]
      exact hold
    · rw [if_neg hap]
      exact hold

/-- Cross-kind consistency is preserved by `createChild` of a fresh entity. -/
theorem crossinv_create {K : Type} (p n : Nat) (w : Treent.FWorld K)
    (hI : Treent.CrossInv w) (hf : Treent.FreshFor n w) :
    Treent.CrossInv (Treent.createChild p n w) := by
  rw [Treent.createChild]
  apply crossinv_attach
  intro a b k
  have hold := hI a b k
  have hfb := hf b
  simp only [Treent.FacadeRel] at hold ⊢
  by_cases hbn : b = n
  · simp [hbn]
  · by_cases han : a = n
    · simp only [hbn, han, if_neg hbn, if_pos rfl]
      simp [hfb.2 k]
    · simp only [if_neg hbn, if_neg han]
      exact hold

/-- Claim C2: in every facade world reachable through the public facade
operations, the facade parent/child relation between two entities holds
iff, for every configured tree-aware kind, the child's component of that
kind records the parent's component as its parent: attach and detach
update all configured kinds together, so no reachable state has one kind
linked and another unlinked for the same facade pair. -/
theorem treent_c2_theorem {K : Type} (w : Treent.FWorld K)
    (h : Treent.ReachableF K w) : Treent.CrossInv w := by
  induction h with
  | init =>
      intro a b k
      simp [Treent.emptyF, Treent.FacadeRel, TreeComponent.emptyWorld]
  | append p c w w' _ happ ih =>
      rw [Treent.appendChild] at happ
      by_cases hc : (w.facade c).fparent = none
      · rw [if_pos hc] at happ
        injection happ with happ
        rw [← happ]
        exact crossinv_attach p c w ih
      · rw [if_neg hc] at happ
        exact absurd happ (by simp)
  | remove p c w _ ih =>
      exact crossinv_remove p c w ih
  | create p n w _ hpn hf ih =>
      exact crossinv_create p n w ih hf

/-- Witness for C2: creating facade 1 as a child of facade 0 in the empty
one-kind world yields a reachable world, hence a cross-kind-consistent one. -/
theorem treent_c2_witness :
    Treent.ReachableF Unit (Treent.createChild 0 1 (Treent.emptyF Unit))
    ∧ Treent.CrossInv (Treent.createChild 0 1 (Treent.emptyF Unit)) := by
  have hf : Treent.FreshFor 1 (Treent.emptyF Unit) := by
    intro j
    constructor
    · simp [Treent.emptyF]
    · intro k
      simp [Treent.emptyF, TreeComponent.emptyWorld]
  have hre : Treent.ReachableF Unit (Treent.createChild 0 1 (Treent.emptyF Unit)) :=
    Treent.ReachableF.create 0 1 (Treent.emptyF Unit) Treent.ReachableF.init (by decide) hf
  exact ⟨hre, treent_c2_theorem _ hre⟩

/-- Size of a node in terms of its children's sizes. -/
theorem treent.Tree.size_node {α : Type} (i : Nat) (p : α) (cs : List (treent.Tree α)) :
    treent.Tree.size (.node i p cs) = 1 + (cs.map treent.Tree.size).sum := by
  simp only [treent.Tree.size]
  rw [← List.attach_map_val cs treent.Tree.size]

/-- Members of the children list are strictly smaller. -/
theorem treent.Tree.size_lt_of_mem {α : Type} {c : treent.Tree α} {i : Nat} {p : α} {cs : List (treent.Tree α)}
    (h : c ∈ cs) : c.size < (treent.Tree.node i p cs).size := by
  rw [treent.Tree.size_node]
  have h3 := List.single_le_sum (l := cs.map treent.Tree.size) (fun x _ => Nat.zero_le x)
    _ (List.mem_map_of_mem treent.Tree.size h)
  have h4 : 0 < c.size := by
    rcases c with ⟨j, q, ds⟩
    rw [treent.Tree.size_node]
    omega
  omega

/-- Strong induction over the node count of a subtree. -/
theorem treent.Tree.sizeInduction {α : Type} {motive : treent.Tree α → Prop}
    (ind : ∀ t : treent.Tree α, (∀ s : treent.Tree α, s.size < t.size → motive s) → motive t) :
    ∀ t, motive t := by
  have H : ∀ (n : Nat) (t : treent.Tree α), t.size < n → motive t := by
    intro n
    induction n with
    | zero => intro t ht; omega
    | succ n ihn => intro t _; exact ind t (fun s hs => ihn s (by omega))
  exact fun t => H (t.size + 1) t (by omega)

/-- `composeRoot` preserves the node count. -/
theorem composeRoot_size {α : Type} (f : α → α → α) (t : treent.Tree α) (src : α) :
    (composeRoot f t src).size = t.size := by
  rcases t with ⟨i, p, cs⟩
  rw [composeRoot, treent.Tree.size_node, treent.Tree.size_node]

/-- `composeRoot` preserves the root id. -/
theorem composeRoot_rootId {α : Type} (f : α → α → α) (t : treent.Tree α) (src : α) :
    (composeRoot f t src).rootId = t.rootId := by
  rcases t with ⟨i, p, cs⟩
  rw [composeRoot]
  rfl

/-- `composeRoot` preserves the pre-order id listing. -/
theorem composeRoot_preorderIds {α : Type} (f : α → α → α) (t : treent.Tree α) (src : α) :
    (composeRoot f t src).preorderIds = t.preorderIds := by
  rcases t with ⟨i, p, cs⟩
  rw [composeRoot]
  simp only [treent.Tree.preorderIds]

/-- Clean unfolding of `descend` at a node. -/
theorem treent.Tree.descend_node {α : Type} (f : α → α → α) (i : Nat) (p : α) (cs : List (treent.Tree α)) :
    treent.Tree.descend f (.node i p cs)
      = .node i p (cs.map (fun c => treent.Tree.descend f (composeRoot f c p))) := by
  simp only [treent.Tree.descend]
  congr 1
  rw [← List.attach_map_val cs (fun c => treent.Tree.descend f (composeRoot f c p))]

/-- Clean unfolding of `descendTrace` at a node. -/
theorem treent.Tree.descendTrace_node {α : Type} (f : α → α → α) (i : Nat) (p : α) (cs : List (treent.Tree α)) :
    treent.Tree.descendTrace f (.node i p cs)
      = (cs.map (fun c =>
          (composeRoot f c p).rootId :: treent.Tree.descendTrace f (composeRoot f c p))).flatten := by
  simp only [treent.Tree.descendTrace]
  congr 1
  rw [← List.attach_map_val cs
    (fun c => (composeRoot f c p).rootId :: treent.Tree.descendTrace f (composeRoot f c p))]

/-- Clean unfolding of `preorderIds` at a node. -/
theorem treent.Tree.preorderIds_node {α : Type} (i : Nat) (p : α) (cs : List (treent.Tree α)) :
    treent.Tree.preorderIds (.node i p cs) = i :: (cs.map treent.Tree.preorderIds).flatten := by
  simp only [treent.Tree.preorderIds]
  congr 2
  rw [← List.attach_map_val cs treent.Tree.preorderIds]

/-- Clean unfolding of `descendSpec` at a node. -/
theorem treent.Tree.descendSpec_node {α : Type} (f : α → α → α) (acc : α) (i : Nat) (p : α)
    (cs : List (treent.Tree α)) :
    treent.Tree.descendSpec f acc (.node i p cs)
      = .node i (f p acc) (cs.map (treent.Tree.descendSpec f (f p acc))) := by
  simp only [treent.Tree.descendSpec]
  congr 1
  rw [← List.attach_map_val cs (treent.Tree.descendSpec f (f p acc))]

/-- Clean unfolding of `shape` at a node. -/
theorem treent.Tree.shape_node {α : Type} (i : Nat) (p : α) (cs : List (treent.Tree α)) :
    treent.Tree.shape (.node i p cs) = .node i () (cs.map treent.Tree.shape) := by
  simp only [treent.Tree.shape]
  congr 1
  rw [← List.attach_map_val cs treent.Tree.shape]

/-- The pre-order listing is its root id followed by its own tail. -/
theorem treent.Tree.preorderIds_head {α : Type} (t : treent.Tree α) :
    t.rootId :: (t.preorderIds).drop 1 = t.preorderIds := by
  rcases t with ⟨i, p, cs⟩
  rw [treent.Tree.preorderIds_node]
  rfl

/-- The visit sequence of `descend()` is exactly the pre-order listing of
the strict descendants (payload mutation does not alter which nodes are
visited or in which order). -/
theorem descendTrace_eq_preorder {α : Type} (f : α → α → α) :
    ∀ t : treent.Tree α, treent.Tree.descendTrace f t = (treent.Tree.preorderIds t).drop 1 := by
  apply treent.Tree.sizeInduction
  rintro ⟨i, p, cs⟩ ih
  rw [treent.Tree.descendTrace_node, treent.Tree.preorderIds_node]
  simp only [List.drop_succ_cons, List.drop_zero]
  congr 1
  apply List.map_congr_left
  intro c hc
  have hsz : (composeRoot f c p).size < (treent.Tree.node i p cs).size := by
    rw [composeRoot_size]
    exact treent.Tree.size_lt_of_mem hc
  rw [ih (composeRoot f c p) hsz, composeRoot_rootId, composeRoot_preorderIds,
    treent.Tree.preorderIds_head]

/-- Every strictly occurring subtree's full pre-order listing is a sublist
of the `descend` visit sequence: its root is visited before all of its
descendants, which are visited in insertion order. -/
theorem occursIn_sublist_trace {α : Type} (f : α → α → α) (t s : treent.Tree α)
    (h : OccursIn s t) : (treent.Tree.preorderIds s).Sublist (treent.Tree.descendTrace f t) := by
  induction h with
  | here t hmem =>
      rcases t with ⟨i, p, cs⟩
      have hmem2 : s ∈ cs := hmem
      rw [treent.Tree.descendTrace_node]
      have hg : (composeRoot f s p).rootId :: treent.Tree.descendTrace f (composeRoot f s p)
          = treent.Tree.preorderIds s := by
        rw [descendTrace_eq_preorder, composeRoot_rootId, composeRoot_preorderIds,
          treent.Tree.preorderIds_head]
      have hmem3 : treent.Tree.preorderIds s
          ∈ cs.map (fun c =>
              (composeRoot f c p).rootId :: treent.Tree.descendTrace f (composeRoot f c p)) := by
        rw [← hg]
        exact List.mem_map_of_mem _ hmem2
      exact (List.sublist_flatten_of_mem hmem3)
  | deeper c t hmem _ ih =>
      rcases t with ⟨i, p, cs⟩
      have hmem2 : c ∈ cs := hmem
      rw [treent.Tree.descendTrace_node]
      have htr : treent.Tree.descendTrace f c = treent.Tree.descendTrace f (composeRoot f c p) := by
        rw [descendTrace_eq_preorder, descendTrace_eq_preorder, composeRoot_preorderIds]
      have h1 : (treent.Tree.preorderIds s).Sublist
          ((composeRoot f c p).rootId :: treent.Tree.descendTrace f (composeRoot f c p)) := by
        rw [← htr]
        exact ih.trans (List.sublist_cons_self _ _)
      refine h1.trans (List.sublist_flatten_of_mem ?_)
      exact List.mem_map_of_mem _ hmem2

/-- `descend` agrees with the specification-side accumulator recomputation:
descending into a child that has just been composed with `acc` produces
exactly the recomputation of that child under accumulated state `acc`. -/
theorem descend_composeRoot_eq_spec {α : Type} (f : α → α → α) :
    ∀ (t : treent.Tree α) (acc : α),
      treent.Tree.descend f (composeRoot f t acc) = treent.Tree.descendSpec f acc t := by
  have H : ∀ t : treent.Tree α, ∀ acc : α,
      treent.Tree.descend f (composeRoot f t acc) = treent.Tree.descendSpec f acc t := by
    apply treent.Tree.sizeInduction
    rintro ⟨i, p, cs⟩ ih
    intro acc
    rw [composeRoot, treent.Tree.descend_node, treent.Tree.descendSpec_node]
    congr 1
    apply List.map_congr_left
    intro c hc
    exact ih c (treent.Tree.size_lt_of_mem hc) (f p acc)
  exact H

/-- Claim C3: `descend()` is a depth-first pre-order traversal — its visit
sequence is exactly the pre-order listing of the strict descendants
(children in insertion order); when the ids of the subtree are distinct,
every strict descendant is visited exactly once per call; each node's own
id is visited before every id of its subtree (the parent is composed into
a child before that child's children are visited); and the payload effect
equals the spec-side recomputation in which each child is composed with
its parent's already-composed state before its own children consume it. -/
theorem treent_c3_theorem {α : Type} (f : α → α → α) (t : treent.Tree α)
    (h : (treent.Tree.preorderIds t).Nodup) :
    treent.Tree.descendTrace f t = (treent.Tree.preorderIds t).drop 1
    ∧ (∀ j ∈ (treent.Tree.preorderIds t).drop 1, (treent.Tree.descendTrace f t).count j = 1)
    ∧ (∀ s : treent.Tree α, OccursIn s t → (treent.Tree.preorderIds s).Sublist (treent.Tree.descendTrace f t))
    ∧ treent.Tree.descend f t
        = treent.Tree.node t.rootId t.rootPayload (t.children.map (treent.Tree.descendSpec f t.rootPayload)) := by
  refine ⟨descendTrace_eq_preorder f t, ?_, fun s hs => occursIn_sublist_trace f t s hs, ?_⟩
  · intro j hj
    rw [descendTrace_eq_preorder f t]
    exact List.count_eq_one_of_mem (h.sublist (List.drop_sublist 1 _)) hj
  · rcases t with ⟨i, p, cs⟩
    rw [treent.Tree.descend_node]
    simp only [treent.Tree.rootId, treent.Tree.rootPayload, treent.Tree.children]
    congr 1
    apply List.map_congr_left
    intro c hc
    exact descend_composeRoot_eq_spec f c p

/-- Witness for C3 on the concrete subtree `exTree` (ids 0, 1, 3, 2 and
integer payloads, additive compose). -/
theorem treent_c3_witness :
    (treent.Tree.preorderIds exTree).Nodup
    ∧ (treent.Tree.descendTrace (· + ·) exTree = (treent.Tree.preorderIds exTree).drop 1
    ∧ (∀ j ∈ (treent.Tree.preorderIds exTree).drop 1, (treent.Tree.descendTrace (· + ·) exTree).count j = 1)
    ∧ (∀ s : treent.Tree Int, OccursIn s exTree
        → (treent.Tree.preorderIds s).Sublist (treent.Tree.descendTrace (· + ·) exTree))
    ∧ treent.Tree.descend (· + ·) exTree
        = treent.Tree.node exTree.rootId exTree.rootPayload
            (exTree.children.map (treent.Tree.descendSpec (· + ·) exTree.rootPayload))) := by
  have hnd : (treent.Tree.preorderIds exTree).Nodup := by
    rw [show treent.Tree.preorderIds exTree = [0, 1, 3, 2] from by
      simp [exTree, treent.Tree.preorderIds_node]]
    decide
  exact ⟨hnd, treent_c3_theorem (· + ·) exTree hnd⟩

/-- The shape of a composed node is the shape of the node. -/
theorem composeRoot_shape {α : Type} (f : α → α → α) (t : treent.Tree α) (src : α) :
    (composeRoot f t src).shape = t.shape := by
  rcases t with ⟨i, p, cs⟩
  rw [composeRoot, treent.Tree.shape_node, treent.Tree.shape_node]

/-- `descend` never changes the id/children skeleton. -/
theorem descend_shape {α : Type} (f : α → α → α) :
    ∀ t : treent.Tree α, (treent.Tree.descend f t).shape = t.shape := by
  apply treent.Tree.sizeInduction
  rintro ⟨i, p, cs⟩ ih
  rw [treent.Tree.descend_node, treent.Tree.shape_node, treent.Tree.shape_node]
  congr 1
  rw [List.map_map]
  apply List.map_congr_left
  intro c hc
  have hsz : (composeRoot f c p).size < (treent.Tree.node i p cs).size := by
    rw [composeRoot_size]
    exact treent.Tree.size_lt_of_mem hc
  show (treent.Tree.descend f (composeRoot f c p)).shape = c.shape
  rw [ih (composeRoot f c p) hsz, composeRoot_shape]

/-- Claim C10: `descend()` never mutates the component state of the node it
is called on — the root's id and payload are unchanged — and it preserves
the whole id/children skeleton, so only the payloads of strict descendants
can change. -/
theorem treent_c10_theorem {α : Type} (f : α → α → α) (t : treent.Tree α) :
    (treent.Tree.descend f t).rootId = t.rootId
    ∧ (treent.Tree.descend f t).rootPayload = t.rootPayload
    ∧ (treent.Tree.descend f t).shape = t.shape := by
  refine ⟨?_, ?_, descend_shape f t⟩
  · rcases t with ⟨i, p, cs⟩
    rw [treent.Tree.descend_node]
    rfl
  · rcases t with ⟨i, p, cs⟩
    rw [treent.Tree.descend_node]
    rfl

/-- Claim C4: `ascend()` visits exactly the ancestors of the starting node,
nearest first, terminating at the root (the recursion consumes precisely
the parent chain); with distinct ancestor ids each ancestor is visited
exactly once; and each ancestor is mutated by composing into it the state
of the node directly below it, already composed — the payloads after the
call are the suffix of the left scan of the compose rule along the chain,
child folded into ancestor before the walk continues upward. -/
theorem treent_c4_theorem {α : Type} (f : α → α → α) (s : α) (chain : List (Nat × α))
    (h : (chain.map Prod.fst).Nodup) :
    (treent.ascend f s chain).map Prod.fst = chain.map Prod.fst
    ∧ (∀ i ∈ chain.map Prod.fst, ((treent.ascend f s chain).map Prod.fst).count i = 1)
    ∧ (treent.ascend f s chain).map Prod.snd
        = (List.scanl (fun acc q => f q acc) s (chain.map Prod.snd)).tail := by
  have hfst : ∀ (s : α) (chain : List (Nat × α)),
      (treent.ascend f s chain).map Prod.fst = chain.map Prod.fst := by
    intro s chain
    induction chain generalizing s with
    | nil => rfl
    | cons hd tl ih =>
        rcases hd with ⟨i, p⟩
        rw [treent.ascend]
        simp only [List.map_cons]
        rw [ih]
  have hsnd : ∀ (s : α) (chain : List (Nat × α)),
      (treent.ascend f s chain).map Prod.snd
        = (List.scanl (fun acc q => f q acc) s (chain.map Prod.snd)).tail := by
    intro s chain
    induction chain generalizing s with
    | nil => rfl
    | cons hd tl ih =>
        rcases hd with ⟨i, p⟩
        rw [treent.ascend]
        simp only [List.map_cons, List.scanl_cons, List.tail_cons]
        rw [ih (f p s)]
        cases htl : tl.map Prod.snd with
        | nil => simp [List.scanl_nil]
        | cons q qs => simp [List.scanl_cons]
  refine ⟨hfst s chain, ?_, hsnd s chain⟩
  intro i hi
  rw [hfst s chain]
  exact List.count_eq_one_of_mem h hi

/-- Witness for C4 on the chain `exChain` (ancestors 1 and 2, payloads 10
and 20, start payload 5, additive compose). -/
theorem treent_c4_witness :
    ((exChain.map Prod.fst).Nodup)
    ∧ ((treent.ascend (· + ·) 5 exChain).map Prod.fst = exChain.map Prod.fst
    ∧ (∀ i ∈ exChain.map Prod.fst, ((treent.ascend (· + ·) 5 exChain).map Prod.fst).count i = 1)
    ∧ (treent.ascend (· + ·) 5 exChain).map Prod.snd
        = (List.scanl (fun acc q => (· + ·) q acc) 5 (exChain.map Prod.snd)).tail) :=
  ⟨by decide, treent_c4_theorem (· + ·) 5 exChain (by decide)⟩

/-- Claim C9 (divergence theorem): when the registry destroys the entity of
a facade that still has its back-reference armed but has NO parent (a
root), `~treent.TreentNodeComponent` evaluates `t->_entity = Entity()` with
`t = removeFromParent() = nullptr` — a null-pointer dereference instead of
marking the facade invalid, so the teardown contract fails exactly on
roots. -/
theorem treent_c9_theorem (s : DState) (h1 : s.backref.isSome)
    (h2 : s.fparent = none) :
    treent.nodeComponentTeardown s = Except.error () := by
  rcases s with ⟨br, fp, ev⟩
  cases br with
  | none => simp at h1
  | some x =>
      simp only at h2
      rw [h2]
      rfl

/-- Witness for C9: the concrete root state with an armed back-reference. -/
theorem treent_c9_witness :
    rootDState.backref.isSome ∧ rootDState.fparent = none
    ∧ treent.nodeComponentTeardown rootDState = Except.error () :=
  ⟨by decide, by decide, treent_c9_theorem rootDState (by decide) (by decide)⟩
